import Mathlib

/-!
Verification of the verified-protocol record codec
(smart_contracts/verified_protocol/contract.py and read_records.py)
and of the reputation aggregation engine (reputation_engine/engine.py).

Bytes are modelled as natural numbers below 256 in a List; all integers
on the wire are big-endian, as in the source.  Strings are modelled as
their UTF-8 byte sequences, so string equality is byte-for-byte equality.
-/

namespace VerifiedProtocol

/-- Big-endian byte encoding of the low w bytes of a natural number.
This is the truncating encoding performed by the AVM itob/extract idiom:
for w = 2 it is exactly op.extract(op.itob value, 6, 2) from contract.py,
and for w = 8 it is op.itob itself. -/
def beBytes : Nat → Nat → List Nat
  | 0, _ => []
  | w + 1, n => beBytes w (n / 256) ++ [n % 256]

/-- A skill record at wire level: the five fields of the SkillRecord
ARC-4 struct in contract.py.  The three string fields are kept as their
UTF-8 byte sequences. -/
structure SkillRecord where
  mode : List Nat
  domain : List Nat
  score : Nat
  artifact_hash : List Nat
  timestamp : Nat
  deriving DecidableEq

/-- Total byte size of the ARC-4 struct payload for a record:
a 22-byte static header (2+2+8+2+8) plus three string blocks of
2-byte length headers and their data. -/
def recordSize (r : SkillRecord) : Nat :=
  28 + r.mode.length + r.domain.length + r.artifact_hash.length

/-- Modelled from the spec: the ARC-4 struct encoding produced by
record.bytes in contract.py is computed by the algopy runtime, which is
not part of this repository.  The layout follows spec section 4.1 and the
header layout documented in contract.py and read_records.py: a 22-byte
header of two-byte offsets to mode, domain and artifact_hash data plus
the two 8-byte big-endian integers score and timestamp, followed by the
three length-prefixed string blocks in order. -/
def skillRecordBytes (r : SkillRecord) : List Nat :=
  beBytes 2 22 ++
  beBytes 2 (24 + r.mode.length) ++
  beBytes 8 r.score ++
  beBytes 2 (26 + r.mode.length + r.domain.length) ++
  beBytes 8 r.timestamp ++
  beBytes 2 r.mode.length ++ r.mode ++
  beBytes 2 r.domain.length ++ r.domain ++
  beBytes 2 r.artifact_hash.length ++ r.artifact_hash

/-- The helper subroutine uint16_to_bytes from contract.py:
op.extract(op.itob value, 6, 2), i.e. the low two bytes of the 8-byte
big-endian encoding.  Values at or above 65536 are silently truncated
modulo 65536. -/
def uint16_to_bytes (v : Nat) : List Nat :=
  beBytes 2 v

/-- The length-prefixed payload appended by submit_skill_record in
contract.py: the two-byte length header followed by the record bytes. -/
def recordPayload (r : SkillRecord) : List Nat :=
  uint16_to_bytes (skillRecordBytes r).length ++ skillRecordBytes r

/-- The box update performed by submit_skill_record in contract.py.
If the box exists it is resized and the payload written at the old end
(concatenation); if it does not exist it is created holding exactly the
payload, which is concatenation onto the empty buffer. -/
def submit_skill_record (box : List Nat) (r : SkillRecord) : List Nat :=
  box ++ recordPayload r

/-- The buffer that results from submitting a sequence of records in
order, starting from an empty box. -/
def ledgerBytes : List SkillRecord → List Nat
  | [] => []
  | r :: rest => recordPayload r ++ ledgerBytes rest

/-- A record that the claims regard as encodable without loss: its
struct payload fits the 16-bit frame length and its two integers fit
unsigned 64 bits. -/
def valid_record (r : SkillRecord) : Prop :=
  recordSize r ≤ 65535 ∧ r.score < 2 ^ 64 ∧ r.timestamp < 2 ^ 64

instance (r : SkillRecord) : Decidable (valid_record r) := by
  unfold valid_record; infer_instance

/-- Reading w bytes big-endian at byte offset i, as struct.unpack does in
read_records.py: the Python slice shortens silently but unpack raises
unless exactly w bytes are present, so the read fails unless the slice
is full. -/
def readBE (b : List Nat) (i w : Nat) : Option Nat :=
  let s := (b.drop i).take w
  if s.length = w then some (s.foldl (fun a x => a * 256 + x) 0) else none

/-- The read_arc4_string helper from read_records.py: a 2-byte length at
the offset (raising, hence none, if fewer than two bytes are there),
then a Python slice of that many bytes, which truncates silently. -/
def read_arc4_string (data : List Nat) (start : Nat) : Option (List Nat) :=
  (readBE data start 2).map (fun n => (data.drop (start + 2)).take n)

/-- One decoded entry of read_records.py: either a parsed record or the
error dict carrying the raw bytes of a malformed frame. -/
inductive DecodedEntry where
  | ok : SkillRecord → DecodedEntry
  | err : List Nat → DecodedEntry
  deriving DecidableEq

/-- The per-frame try block of decode_skill_records: parse the 22-byte
static header, then the three strings at their offsets; any failed
unpack raises and the frame is recorded as an error entry with its raw
bytes. -/
def parseRecord (rec : List Nat) : DecodedEntry :=
  match readBE rec 0 2, readBE rec 2 2, readBE rec 4 8,
        readBE rec 12 2, readBE rec 14 8 with
  | some modeOff, some domainOff, some score, some artifactOff, some ts =>
    match read_arc4_string rec modeOff, read_arc4_string rec domainOff,
          read_arc4_string rec artifactOff with
    | some m, some d, some a =>
      .ok { mode := m, domain := d, score := score, artifact_hash := a, timestamp := ts }
    | _, _, _ => .err rec
  | _, _, _, _, _ => .err rec

/-- Fuel-indexed loop of decode_skill_records.  The Bool output records
whether the truncated-record warning was emitted: it fires only in the
branch where a full 2-byte length header is present but fewer bytes than
it promises remain; a lone trailing byte exits the loop silently.  Fuel
at least the buffer length is always sufficient because every iteration
consumes at least two bytes. -/
def decodeGo : Nat → List Nat → List DecodedEntry × Bool
  | _, [] => ([], false)
  | 0, _ => ([], false)
  | _ + 1, [_] => ([], false)
  | fuel + 1, b0 :: b1 :: rest =>
    let len := b0 * 256 + b1
    if len ≤ rest.length then
      let p := decodeGo fuel (rest.drop len)
      (parseRecord (rest.take len) :: p.1, p.2)
    else ([], true)

/-- decode_skill_records from read_records.py, over the raw box bytes.
Returns the decoded entries in order together with the flag of the
truncated-record warning. -/
def decode_skill_records (raw : List Nat) : List DecodedEntry × Bool :=
  decodeGo raw.length raw

/-- Fuel-indexed loop of get_record_count from contract.py.  The AVM
op.extract(box, offset, 2) panics when fewer than two bytes remain, so a
lone trailing byte makes the whole call fail (none).  The loop never
checks that the promised body bytes are present, so a final frame with a
full length header but a short body is still counted. -/
def countGo : Nat → List Nat → Option Nat
  | _, [] => some 0
  | 0, _ => none
  | _ + 1, [_] => none
  | fuel + 1, b0 :: b1 :: rest =>
    (countGo fuel (rest.drop (b0 * 256 + b1))).map (· + 1)

/-- get_record_count from contract.py over the box bytes. -/
def get_record_count (box : List Nat) : Option Nat :=
  countGo box.length box

/-- Number of leading records of a submission sequence whose complete
frames fit inside the first n bytes of the encoded buffer. -/
def fitCount : List SkillRecord → Nat → Nat
  | [], _ => 0
  | r :: rest, n =>
    if 2 + recordSize r ≤ n then fitCount rest (n - (2 + recordSize r)) + 1 else 0

/-- Concrete sample records used to instantiate the general theorems. -/
def sampleA : SkillRecord := { mode := [97], domain := [98], score := 7, artifact_hash := [99], timestamp := 11 }

/-- A second concrete sample record. -/
def sampleB : SkillRecord := { mode := [100], domain := [101], score := 8, artifact_hash := [102], timestamp := 12 }

/-- A concrete record with two-byte strings. -/
def sampleHi : SkillRecord := { mode := [104, 105], domain := [112, 121], score := 95, artifact_hash := [97], timestamp := 1700000000 }

/-- A minimal record with empty strings. -/
def tiny1 : SkillRecord := { mode := [], domain := [], score := 1, artifact_hash := [], timestamp := 2 }

/-- A second minimal record. -/
def tiny2 : SkillRecord := { mode := [], domain := [], score := 3, artifact_hash := [], timestamp := 4 }

/-- A third minimal record. -/
def tiny3 : SkillRecord := { mode := [], domain := [], score := 5, artifact_hash := [], timestamp := 6 }

/-- A minimal all-zero record. -/
def tiny0 : SkillRecord := { mode := [], domain := [], score := 0, artifact_hash := [], timestamp := 0 }

/-- A 65508-byte string of zero bytes, within the claimed per-string
65535-byte bound. -/
def bigMode0 : List Nat := List.replicate 65508 0

/-- A 65508-byte string of letter bytes. -/
def bigMode97 : List Nat := List.replicate 65508 97

/-- A record whose mode string alone is 65508 bytes, within the claimed
per-string bound, putting the whole struct at exactly 65536 bytes. -/
def bigModeRecord : SkillRecord := { mode := bigMode0, domain := [], score := 0, artifact_hash := [], timestamp := 0 }

/-- A second oversized-struct record with nonzero fields. -/
def bigModeRecord2 : SkillRecord := { mode := bigMode97, domain := [], score := 5, artifact_hash := [], timestamp := 7 }

/-- A small record with one-byte strings. -/
def smallRecord : SkillRecord := { mode := [104], domain := [105], score := 3, artifact_hash := [106], timestamp := 9 }

/-! Reputation engine (reputation_engine/engine.py).  Decoded records
arrive as dicts with string fields; scores and timestamps are the
unsigned integers produced by the decoder.  Python float arithmetic is
idealised as real arithmetic, and the float round function as exact
round-half-to-even on the reals. -/

/-- A decoded record as consumed by ReputationEngine.compute. -/
structure DecodedRecord where
  mode : String
  domain : String
  score : Nat
  artifact_hash : String
  timestamp : Nat
  deriving DecidableEq

/-- CredibilityLevel from ai_scoring.models, as assigned by
ReputationEngine. -/
inductive CredibilityLevel where
  | exceptional
  | strong
  | moderate
  | developing
  | minimal
  deriving DecidableEq

/-- DomainScore as produced by ReputationEngine. -/
structure DomainScore where
  domain : String
  score : ℝ
  record_count : Nat
  latest_timestamp : Nat
  trend : String

/-- ReputationProfile as produced by ReputationEngine.compute. -/
structure ReputationProfile where
  wallet : String
  total_reputation : ℝ
  credibility_level : CredibilityLevel
  domain_scores : List DomainScore
  verification_badge : Bool
  total_records : Nat
  trust_index : ℝ
  top_domain : Option String
  active_since : Option Nat

/-- Python round-half-to-even of a real to an integer. -/
noncomputable def roundEven (y : ℝ) : ℤ :=
  if Int.fract y = 1 / 2 then (if Even ⌊y⌋ then ⌊y⌋ else ⌊y⌋ + 1) else round y

/-- Python round(x, n): round half to even at n decimal digits,
idealised over the reals. -/
noncomputable def pyRound (x : ℝ) (n : Nat) : ℝ :=
  (roundEven (x * 10 ^ n) : ℝ) / 10 ^ n

/-- The engine constant DECAY_HALF_LIFE_DAYS = 180. -/
def DECAY_HALF_LIFE_DAYS : ℝ := 180

/-- ReputationEngine decay weight: math.exp(-0.693 * age_days / 180).
The source uses the literal 0.693, not ln 2. -/
noncomputable def decay_weight (ageDays : ℝ) : ℝ :=
  Real.exp (-0.693 * ageDays / DECAY_HALF_LIFE_DAYS)

/-- The age in days used in score_domain: max(0, (now - ts) / 86400) for
a truthy (nonzero) timestamp, else 365. -/
noncomputable def ageDays (now ts : Nat) : ℝ :=
  if ts = 0 then 365 else max 0 (((now : ℝ) - (ts : ℝ)) / 86400)

/-- The decay weight a record receives inside score_domain. -/
noncomputable def recordWeight (now : Nat) (r : DecodedRecord) : ℝ :=
  decay_weight (ageDays now r.timestamp)

/-- normalize_domain from the engine: split on the first colon, take the
head, lowercase and strip. -/
def normalize_domain (dom : String) : String :=
  (((dom.splitOn ":").headD "").toLower).trim

/-- Insertion of a record into a timestamp-ascending sorted list,
placing it before later-or-equal timestamps so that the overall sort is
stable, as Python sorted is. -/
def insertByTs (r : DecodedRecord) : List DecodedRecord → List DecodedRecord
  | [] => [r]
  | x :: t => if r.timestamp ≤ x.timestamp then r :: x :: t else x :: insertByTs r t

/-- Stable sort of records by ascending timestamp, as used for trend
detection. -/
def sortByTs : List DecodedRecord → List DecodedRecord
  | [] => []
  | r :: t => insertByTs r (sortByTs t)

/-- Grouping of records by normalized domain preserving first-encounter
order of keys and record order within a key, as a Python defaultdict
fill does. -/
def groupByDomain (rs : List DecodedRecord) : List (String × List DecodedRecord) :=
  rs.foldl (fun acc r =>
    let k := normalize_domain r.domain
    if acc.any (fun p => p.1 = k) then
      acc.map (fun p => if p.1 = k then (p.1, p.2 ++ [r]) else p)
    else acc ++ [(k, [r])]) []

/-- Minimum of a nonempty list of naturals (0 for the empty list, which
the engine never queries). -/
def minList : List Nat → Nat
  | [] => 0
  | x :: t => t.foldl min x

/-- Maximum of a nonempty list of naturals. -/
def maxList : List Nat → Nat
  | [] => 0
  | x :: t => t.foldl max x

/-- score_domain from the engine: decay-weighted mean of clamped scores,
latest timestamp, and trend classification over the halves of the
timestamp-sorted records. -/
noncomputable def score_domain (dom : String) (records : List DecodedRecord)
    (now : Nat) : DomainScore :=
  let weighted_sum : ℝ :=
    (records.map (fun r => ((min r.score 100 : Nat) : ℝ) * recordWeight now r)).sum
  let weight_sum : ℝ := (records.map (fun r => recordWeight now r)).sum
  let latest_ts : Nat := records.foldl (fun acc r => max acc r.timestamp) 0
  let avg_score : ℝ := if 0 < weight_sum then weighted_sum / weight_sum else 0
  let trend : String :=
    if 2 ≤ records.length then
      let sorted_recs := sortByTs records
      let first_half := sorted_recs.take (sorted_recs.length / 2)
      let second_half := sorted_recs.drop (sorted_recs.length / 2)
      let avg_first : ℝ :=
        (first_half.map (fun r => (r.score : ℝ))).sum / (max first_half.length 1 : Nat)
      let avg_second : ℝ :=
        (second_half.map (fun r => (r.score : ℝ))).sum / (max second_half.length 1 : Nat)
      if avg_first + 5 < avg_second then "rising"
      else if avg_second < avg_first - 5 then "declining"
      else "stable"
    else "stable"
  { domain := dom, score := pyRound avg_score 2, record_count := records.length,
    latest_timestamp := latest_ts, trend := trend }

/-- compute_trust_index from the engine: the five bounded factors. -/
noncomputable def compute_trust_index (reputation : ℝ) (record_count domain_count : Nat)
    (records : List DecodedRecord) : ℝ :=
  let rep_factor := min 1 (reputation / 85) * 0.40
  let volume_factor := min 1 ((record_count : ℝ) / 10) * 0.20
  let diversity_factor := min 1 ((domain_count : ℝ) / 4) * 0.15
  let scores : List ℝ := records.map (fun r => (r.score : ℝ))
  let consistency : ℝ :=
    if 2 ≤ scores.length then
      let mean := scores.sum / (scores.length : ℝ)
      let variance := (scores.map (fun s => (s - mean) ^ 2)).sum / (scores.length : ℝ)
      max 0 (1 - Real.sqrt variance / 30)
    else 0.5
  let consistency_factor := consistency * 0.15
  let tss : List Nat := (records.map (fun r => r.timestamp)).filter (fun t => t ≠ 0)
  let longevity : ℝ :=
    if tss = [] then 0
    else min 1 (((maxList tss : ℝ) - (minList tss : ℝ)) / 86400 / 180)
  let longevity_factor := longevity * 0.10
  rep_factor + volume_factor + diversity_factor + consistency_factor + longevity_factor

/-- level_from_score from the engine. -/
noncomputable def level_from_score (score : ℝ) : CredibilityLevel :=
  if 90 ≤ score then .exceptional
  else if 70 ≤ score then .strong
  else if 50 ≤ score then .moderate
  else if 30 ≤ score then .developing
  else .minimal

/-- The record-count-weighted mean of domain scores computed in
ReputationEngine.compute and rounded to two decimals. -/
noncomputable def total_reputation_of (records : List DecodedRecord) (now : Nat) : ℝ :=
  let groups := groupByDomain records
  let weighted_total : ℝ :=
    (groups.map (fun g => (score_domain g.1 g.2 now).score * (g.2.length : ℝ))).sum
  let total_weight : ℝ := (groups.map (fun g => (g.2.length : ℝ))).sum
  if 0 < total_weight then pyRound (weighted_total / total_weight) 2 else 0

/-- Python max over domain scores keyed by score keeps the first
maximal element, as the engine relies on for top_domain. -/
noncomputable def argmaxScore (l : List DomainScore) : Option DomainScore :=
  l.foldl (fun best dcur =>
    match best with
    | none => some dcur
    | some b => if b.score < dcur.score then some dcur else some b) none

/-- Stable insertion for the descending sort of domain scores. -/
noncomputable def insertByScoreDesc (dcur : DomainScore) :
    List DomainScore → List DomainScore
  | [] => [dcur]
  | x :: t => if x.score ≤ dcur.score then dcur :: x :: t else x :: insertByScoreDesc dcur t

/-- Stable descending sort of domain scores by score, as
domain_scores.sort(key=score, reverse=True) does. -/
noncomputable def sortByScoreDesc : List DomainScore → List DomainScore
  | [] => []
  | dcur :: t => insertByScoreDesc dcur (sortByScoreDesc t)

/-- ReputationEngine.compute: the full profile computation, with the
empty-ledger zero profile short-circuit. -/
noncomputable def compute (wallet : String) (records : List DecodedRecord)
    (now : Nat) : ReputationProfile :=
  if records = [] then
    { wallet := wallet, total_reputation := 0, credibility_level := .minimal,
      domain_scores := [], verification_badge := false, total_records := 0,
      trust_index := 0, top_domain := none, active_since := none }
  else
    let groups := groupByDomain records
    let domain_scores := groups.map (fun g => score_domain g.1 g.2 now)
    let total_reputation := total_reputation_of records now
    let trust_index := compute_trust_index total_reputation records.length
      domain_scores.length records
    let credibility_level := level_from_score total_reputation
    let badge := decide (3 ≤ records.length)
      && (decide ((50 : ℝ) ≤ total_reputation) && decide (1 ≤ domain_scores.length))
    let top_domain := (argmaxScore domain_scores).map (fun dcur => dcur.domain)
    let tss := (records.map (fun r => r.timestamp)).filter (fun t => t ≠ 0)
    let active_since := if tss = [] then none else some (minList tss)
    { wallet := wallet, total_reputation := total_reputation,
      credibility_level := credibility_level,
      domain_scores := sortByScoreDesc domain_scores,
      verification_badge := badge, total_records := records.length,
      trust_index := pyRound trust_index 4, top_domain := top_domain,
      active_since := active_since }

/-- The trend classification exactly as the spec words it: sort by
timestamp ascending, the later half gets the extra record on odd counts,
compare unweighted means of raw scores against a 5-point margin. -/
noncomputable def specTrend (records : List DecodedRecord) : String :=
  if records.length < 2 then "stable" else
  let sorted_recs := sortByTs records
  let cut := sorted_recs.length - (sorted_recs.length + 1) / 2
  let earlier := sorted_recs.take cut
  let later := sorted_recs.drop cut
  let meanE : ℝ := (earlier.map (fun r => (r.score : ℝ))).sum / (earlier.length : ℝ)
  let meanL : ℝ := (later.map (fun r => (r.score : ℝ))).sum / (later.length : ℝ)
  if 5 < meanL - meanE then "rising"
  else if 5 < meanE - meanL then "declining"
  else "stable"

theorem beBytes_length (w n : Nat) : (beBytes w n).length = w := by
  induction w generalizing n with
  | zero => rfl
  | succ k ih => simp [beBytes, ih]

theorem foldl_beBytes (w : Nat) : ∀ n a : Nat,
    (beBytes w n).foldl (fun acc x => acc * 256 + x) a = a * 256 ^ w + n % 256 ^ w := by
  induction w with
  | zero => intro n a; simp [beBytes, Nat.mod_one]
  | succ k ih =>
    intro n a
    rw [beBytes, List.foldl_append, ih]
    simp only [List.foldl_cons, List.foldl_nil]
    have hm : n % (256 * 256 ^ k) = n % 256 + 256 * (n / 256 % 256 ^ k) := Nat.mod_mul
    have hp : (256 : Nat) ^ (k + 1) = 256 * 256 ^ k := by ring
    rw [hp, hm]; ring

theorem skillRecordBytes_length (r : SkillRecord) :
    (skillRecordBytes r).length = recordSize r := by
  simp [skillRecordBytes, recordSize, beBytes_length]; omega

/-- Reading a w-byte big-endian block at its own position recovers the
value modulo 256 to the w. -/
theorem readBE_here (w n : Nat) (ys : List Nat) :
    readBE (beBytes w n ++ ys) 0 w = some (n % 256 ^ w) := by
  unfold readBE
  have htake : ((beBytes w n ++ ys).drop 0).take w = beBytes w n := by
    rw [List.drop_zero]
    calc (beBytes w n ++ ys).take w
        = (beBytes w n ++ ys).take (beBytes w n).length := by rw [beBytes_length]
      _ = beBytes w n := List.take_left _ _
  rw [htake]
  simp [beBytes_length, foldl_beBytes]

/-- Skipping a leading block shifts a big-endian read. -/
theorem readBE_skip (xs b : List Nat) (i w : Nat) :
    readBE (xs ++ b) (xs.length + i) w = readBE b i w := by
  unfold readBE
  rw [List.drop_append]

/-- Skipping a leading block shifts a drop. -/
theorem drop_skip (xs b : List Nat) (i : Nat) :
    (xs ++ b).drop (xs.length + i) = b.drop i :=
  List.drop_append i

/-- Skipping a leading block shifts a big-endian read, offset form. -/
theorem readBE_peel (x b : List Nat) (k2 k w : Nat) (hk : x.length + k2 = k) :
    readBE (x ++ b) k w = readBE b k2 w := by
  subst hk
  unfold readBE
  rw [List.drop_append]

/-- Skipping a leading block shifts a drop, offset form. -/
theorem drop_peel (x b : List Nat) (k2 k : Nat) (hk : x.length + k2 = k) :
    (x ++ b).drop k = b.drop k2 := by
  subst hk
  exact List.drop_append k2

/-- Parsing the ARC-4 encoding of a record recovers the record exactly,
provided the struct payload fits 16 bits and both integers fit 64 bits. -/
theorem parseRecord_skillRecordBytes (r : SkillRecord) (h : valid_record r) :
    parseRecord (skillRecordBytes r) = .ok r := by
  obtain ⟨hsize, hscore, hts⟩ := h
  obtain ⟨m, d, sc, a, ts⟩ := r
  simp only [recordSize] at hsize
  show parseRecord (skillRecordBytes ⟨m, d, sc, a, ts⟩) = DecodedEntry.ok ⟨m, d, sc, a, ts⟩
  simp only at hscore hts
  unfold skillRecordBytes parseRecord
  simp only [List.append_assoc]
  have h256 : (256 : Nat) ^ 8 = 2 ^ 64 := by norm_num
  have hlen : ∀ w n : Nat, (beBytes w n).length = w := beBytes_length
  have h0 : readBE (beBytes 2 22 ++ (beBytes 2 (24 + m.length) ++ (beBytes 8 sc ++
      (beBytes 2 (26 + m.length + d.length) ++ (beBytes 8 ts ++
      (beBytes 2 m.length ++ (m ++ (beBytes 2 d.length ++ (d ++
      (beBytes 2 a.length ++ a)))))))))) 0 2 = some 22 := by
    rw [readBE_here]
    norm_num
  have h2 : readBE (beBytes 2 22 ++ (beBytes 2 (24 + m.length) ++ (beBytes 8 sc ++
      (beBytes 2 (26 + m.length + d.length) ++ (beBytes 8 ts ++
      (beBytes 2 m.length ++ (m ++ (beBytes 2 d.length ++ (d ++
      (beBytes 2 a.length ++ a)))))))))) 2 2 = some (24 + m.length) := by
    refine (readBE_peel _ _ 0 _ _ (by simp only [hlen] <;> omega)).trans ?r2
    rw [readBE_here, Nat.mod_eq_of_lt (by norm_num; omega)]
  have h4 : readBE (beBytes 2 22 ++ (beBytes 2 (24 + m.length) ++ (beBytes 8 sc ++
      (beBytes 2 (26 + m.length + d.length) ++ (beBytes 8 ts ++
      (beBytes 2 m.length ++ (m ++ (beBytes 2 d.length ++ (d ++
      (beBytes 2 a.length ++ a)))))))))) 4 8 = some sc := by
    refine (readBE_peel _ _ 2 _ _ (by simp only [hlen] <;> omega)).trans ?r3
    refine (readBE_peel _ _ 0 _ _ (by simp only [hlen] <;> omega)).trans ?r4
    rw [readBE_here, h256, Nat.mod_eq_of_lt hscore]
  have h12 : readBE (beBytes 2 22 ++ (beBytes 2 (24 + m.length) ++ (beBytes 8 sc ++
      (beBytes 2 (26 + m.length + d.length) ++ (beBytes 8 ts ++
      (beBytes 2 m.length ++ (m ++ (beBytes 2 d.length ++ (d ++
      (beBytes 2 a.length ++ a)))))))))) 12 2 = some (26 + m.length + d.length) := by
    refine (readBE_peel _ _ 10 _ _ (by simp only [hlen] <;> omega)).trans ?r5
    refine (readBE_peel _ _ 8 _ _ (by simp only [hlen] <;> omega)).trans ?r6
    refine (readBE_peel _ _ 0 _ _ (by simp only [hlen] <;> omega)).trans ?r7
    rw [readBE_here, Nat.mod_eq_of_lt (by norm_num; omega)]
  have h14 : readBE (beBytes 2 22 ++ (beBytes 2 (24 + m.length) ++ (beBytes 8 sc ++
      (beBytes 2 (26 + m.length + d.length) ++ (beBytes 8 ts ++
      (beBytes 2 m.length ++ (m ++ (beBytes 2 d.length ++ (d ++
      (beBytes 2 a.length ++ a)))))))))) 14 8 = some ts := by
    refine (readBE_peel _ _ 12 _ _ (by simp only [hlen] <;> omega)).trans ?r8
    refine (readBE_peel _ _ 10 _ _ (by simp only [hlen] <;> omega)).trans ?r9
    refine (readBE_peel _ _ 2 _ _ (by simp only [hlen] <;> omega)).trans ?r10
    refine (readBE_peel _ _ 0 _ _ (by simp only [hlen] <;> omega)).trans ?r11
    rw [readBE_here, h256, Nat.mod_eq_of_lt hts]
  have hmS : read_arc4_string (beBytes 2 22 ++ (beBytes 2 (24 + m.length) ++ (beBytes 8 sc ++
      (beBytes 2 (26 + m.length + d.length) ++ (beBytes 8 ts ++
      (beBytes 2 m.length ++ (m ++ (beBytes 2 d.length ++ (d ++
      (beBytes 2 a.length ++ a)))))))))) 22 = some m := by
    unfold read_arc4_string
    have hr : readBE (beBytes 2 22 ++ (beBytes 2 (24 + m.length) ++ (beBytes 8 sc ++
        (beBytes 2 (26 + m.length + d.length) ++ (beBytes 8 ts ++
        (beBytes 2 m.length ++ (m ++ (beBytes 2 d.length ++ (d ++
        (beBytes 2 a.length ++ a)))))))))) 22 2 = some m.length := by
      refine (readBE_peel _ _ 20 _ _ (by simp only [hlen] <;> omega)).trans ?r12
      refine (readBE_peel _ _ 18 _ _ (by simp only [hlen] <;> omega)).trans ?r13
      refine (readBE_peel _ _ 10 _ _ (by simp only [hlen] <;> omega)).trans ?r14
      refine (readBE_peel _ _ 8 _ _ (by simp only [hlen] <;> omega)).trans ?r15
      refine (readBE_peel _ _ 0 _ _ (by simp only [hlen] <;> omega)).trans ?r16
      rw [readBE_here, Nat.mod_eq_of_lt (by norm_num; omega)]
    have hdr : (beBytes 2 22 ++ (beBytes 2 (24 + m.length) ++ (beBytes 8 sc ++
        (beBytes 2 (26 + m.length + d.length) ++ (beBytes 8 ts ++
        (beBytes 2 m.length ++ (m ++ (beBytes 2 d.length ++ (d ++
        (beBytes 2 a.length ++ a)))))))))).drop (22 + 2)
        = m ++ (beBytes 2 d.length ++ (d ++ (beBytes 2 a.length ++ a))) := by
      refine (drop_peel _ _ 22 _ (by simp only [hlen] <;> omega)).trans ?r17
      refine (drop_peel _ _ 20 _ (by simp only [hlen] <;> omega)).trans ?r18
      refine (drop_peel _ _ 12 _ (by simp only [hlen] <;> omega)).trans ?r19
      refine (drop_peel _ _ 10 _ (by simp only [hlen] <;> omega)).trans ?r20
      refine (drop_peel _ _ 2 _ (by simp only [hlen] <;> omega)).trans ?r21
      refine (drop_peel _ _ 0 _ (by simp only [hlen] <;> omega)).trans ?r22
      exact List.drop_zero _
    rw [hr, Option.map_some', hdr, List.take_left]
  have hdS : read_arc4_string (beBytes 2 22 ++ (beBytes 2 (24 + m.length) ++ (beBytes 8 sc ++
      (beBytes 2 (26 + m.length + d.length) ++ (beBytes 8 ts ++
      (beBytes 2 m.length ++ (m ++ (beBytes 2 d.length ++ (d ++
      (beBytes 2 a.length ++ a)))))))))) (24 + m.length) = some d := by
    unfold read_arc4_string
    have hr : readBE (beBytes 2 22 ++ (beBytes 2 (24 + m.length) ++ (beBytes 8 sc ++
        (beBytes 2 (26 + m.length + d.length) ++ (beBytes 8 ts ++
        (beBytes 2 m.length ++ (m ++ (beBytes 2 d.length ++ (d ++
        (beBytes 2 a.length ++ a)))))))))) (24 + m.length) 2 = some d.length := by
      refine (readBE_peel _ _ (22 + m.length) _ _ (by simp only [hlen] <;> omega)).trans ?r23
      refine (readBE_peel _ _ (20 + m.length) _ _ (by simp only [hlen] <;> omega)).trans ?r24
      refine (readBE_peel _ _ (12 + m.length) _ _ (by simp only [hlen] <;> omega)).trans ?r25
      refine (readBE_peel _ _ (10 + m.length) _ _ (by simp only [hlen] <;> omega)).trans ?r26
      refine (readBE_peel _ _ (2 + m.length) _ _ (by simp only [hlen] <;> omega)).trans ?r27
      refine (readBE_peel _ _ m.length _ _ (by simp only [hlen] <;> omega)).trans ?r28
      refine (readBE_peel _ _ 0 _ _ (by omega)).trans ?r29
      rw [readBE_here, Nat.mod_eq_of_lt (by norm_num; omega)]
    have hdr : (beBytes 2 22 ++ (beBytes 2 (24 + m.length) ++ (beBytes 8 sc ++
        (beBytes 2 (26 + m.length + d.length) ++ (beBytes 8 ts ++
        (beBytes 2 m.length ++ (m ++ (beBytes 2 d.length ++ (d ++
        (beBytes 2 a.length ++ a)))))))))).drop (24 + m.length + 2)
        = d ++ (beBytes 2 a.length ++ a) := by
      refine (drop_peel _ _ (24 + m.length) _ (by simp only [hlen] <;> omega)).trans ?r30
      refine (drop_peel _ _ (22 + m.length) _ (by simp only [hlen] <;> omega)).trans ?r31
      refine (drop_peel _ _ (14 + m.length) _ (by simp only [hlen] <;> omega)).trans ?r32
      refine (drop_peel _ _ (12 + m.length) _ (by simp only [hlen] <;> omega)).trans ?r33
      refine (drop_peel _ _ (4 + m.length) _ (by simp only [hlen] <;> omega)).trans ?r34
      refine (drop_peel _ _ (2 + m.length) _ (by simp only [hlen] <;> omega)).trans ?r35
      refine (drop_peel _ _ 2 _ (by omega)).trans ?r36
      refine (drop_peel _ _ 0 _ (by simp only [hlen] <;> omega)).trans ?r37
      exact List.drop_zero _
    rw [hr, Option.map_some', hdr, List.take_left]
  have haS : read_arc4_string (beBytes 2 22 ++ (beBytes 2 (24 + m.length) ++ (beBytes 8 sc ++
      (beBytes 2 (26 + m.length + d.length) ++ (beBytes 8 ts ++
      (beBytes 2 m.length ++ (m ++ (beBytes 2 d.length ++ (d ++
      (beBytes 2 a.length ++ a)))))))))) (26 + m.length + d.length) = some a := by
    unfold read_arc4_string
    have hr : readBE (beBytes 2 22 ++ (beBytes 2 (24 + m.length) ++ (beBytes 8 sc ++
        (beBytes 2 (26 + m.length + d.length) ++ (beBytes 8 ts ++
        (beBytes 2 m.length ++ (m ++ (beBytes 2 d.length ++ (d ++
        (beBytes 2 a.length ++ a)))))))))) (26 + m.length + d.length) 2 = some a.length := by
      refine (readBE_peel _ _ (24 + m.length + d.length) _ _ (by simp only [hlen] <;> omega)).trans ?r38
      refine (readBE_peel _ _ (22 + m.length + d.length) _ _ (by simp only [hlen] <;> omega)).trans ?r39
      refine (readBE_peel _ _ (14 + m.length + d.length) _ _ (by simp only [hlen] <;> omega)).trans ?r40
      refine (readBE_peel _ _ (12 + m.length + d.length) _ _ (by simp only [hlen] <;> omega)).trans ?r41
      refine (readBE_peel _ _ (4 + m.length + d.length) _ _ (by simp only [hlen] <;> omega)).trans ?r42
      refine (readBE_peel _ _ (2 + m.length + d.length) _ _ (by simp only [hlen] <;> omega)).trans ?r43
      refine (readBE_peel _ _ (2 + d.length) _ _ (by omega)).trans ?r44
      refine (readBE_peel _ _ d.length _ _ (by simp only [hlen] <;> omega)).trans ?r45
      refine (readBE_peel _ _ 0 _ _ (by omega)).trans ?r46
      rw [readBE_here, Nat.mod_eq_of_lt (by norm_num; omega)]
    have hdr : (beBytes 2 22 ++ (beBytes 2 (24 + m.length) ++ (beBytes 8 sc ++
        (beBytes 2 (26 + m.length + d.length) ++ (beBytes 8 ts ++
        (beBytes 2 m.length ++ (m ++ (beBytes 2 d.length ++ (d ++
        (beBytes 2 a.length ++ a)))))))))).drop (26 + m.length + d.length + 2)
        = a := by
      refine (drop_peel _ _ (26 + m.length + d.length) _ (by simp only [hlen] <;> omega)).trans ?r47
      refine (drop_peel _ _ (24 + m.length + d.length) _ (by simp only [hlen] <;> omega)).trans ?r48
      refine (drop_peel _ _ (16 + m.length + d.length) _ (by simp only [hlen] <;> omega)).trans ?r49
      refine (drop_peel _ _ (14 + m.length + d.length) _ (by simp only [hlen] <;> omega)).trans ?r50
      refine (drop_peel _ _ (6 + m.length + d.length) _ (by simp only [hlen] <;> omega)).trans ?r51
      refine (drop_peel _ _ (4 + m.length + d.length) _ (by simp only [hlen] <;> omega)).trans ?r52
      refine (drop_peel _ _ (4 + d.length) _ (by omega)).trans ?r53
      refine (drop_peel _ _ (2 + d.length) _ (by simp only [hlen] <;> omega)).trans ?r54
      refine (drop_peel _ _ 2 _ (by omega)).trans ?r55
      refine (drop_peel _ _ 0 _ (by simp only [hlen] <;> omega)).trans ?r56
      exact List.drop_zero _
    rw [hr, Option.map_some', hdr]
    rw [List.take_length]
  rw [h0, h2, h4, h12, h14]
  dsimp only
  rw [hmS, hdS, haS]

theorem beBytes_two (n : Nat) : beBytes 2 n = [n / 256 % 256, n % 256] := by
  simp [beBytes]

theorem two_byte_val (n : Nat) (h : n ≤ 65535) : n / 256 % 256 * 256 + n % 256 = n := by
  omega

theorem decodeGo_nil (f : Nat) : decodeGo f [] = ([], false) := by
  cases f <;> rfl

theorem countGo_nil (f : Nat) : countGo f [] = some 0 := by
  cases f <;> rfl

/-- decodeGo does not depend on the fuel once the fuel covers the buffer
length, because every iteration consumes at least two bytes. -/
theorem decodeGo_congr : ∀ f1 : Nat, ∀ f2 : Nat, ∀ b : List Nat,
    b.length ≤ f1 → b.length ≤ f2 → decodeGo f1 b = decodeGo f2 b := by
  intro f1
  induction f1 with
  | zero =>
    intro f2 b h1 _
    have hb : b = [] := List.length_eq_zero.mp (Nat.le_zero.mp h1)
    subst hb
    cases f2 <;> rfl
  | succ g ih =>
    intro f2 b h1 h2
    match b, f2 with
    | [], f2 => rw [decodeGo_nil, decodeGo_nil]
    | [x], f2 =>
      match f2 with
      | 0 => simp at h2
      | k + 1 => rfl
    | b0 :: b1 :: rest, f2 =>
      match f2 with
      | 0 => simp at h2
      | k + 1 =>
        simp only [decodeGo]
        by_cases hc : b0 * 256 + b1 ≤ rest.length
        · rw [if_pos hc, if_pos hc]
          have hlen : (rest.drop (b0 * 256 + b1)).length ≤ g := by
            simp only [List.length_cons] at h1
            simp [List.length_drop]
            omega
          have hlen2 : (rest.drop (b0 * 256 + b1)).length ≤ k := by
            simp only [List.length_cons] at h2
            simp [List.length_drop]
            omega
          rw [ih k _ hlen hlen2]
        · rw [if_neg hc, if_neg hc]

/-- countGo does not depend on the fuel once the fuel covers the buffer
length. -/
theorem countGo_congr : ∀ f1 : Nat, ∀ f2 : Nat, ∀ b : List Nat,
    b.length ≤ f1 → b.length ≤ f2 → countGo f1 b = countGo f2 b := by
  intro f1
  induction f1 with
  | zero =>
    intro f2 b h1 _
    have hb : b = [] := List.length_eq_zero.mp (Nat.le_zero.mp h1)
    subst hb
    cases f2 <;> rfl
  | succ g ih =>
    intro f2 b h1 h2
    match b, f2 with
    | [], f2 => rw [countGo_nil, countGo_nil]
    | [x], f2 =>
      match f2 with
      | 0 => simp at h2
      | k + 1 => rfl
    | b0 :: b1 :: rest, f2 =>
      match f2 with
      | 0 => simp at h2
      | k + 1 =>
        simp only [countGo]
        have hlen : (rest.drop (b0 * 256 + b1)).length ≤ g := by
          simp only [List.length_cons] at h1
          simp [List.length_drop]
          omega
        have hlen2 : (rest.drop (b0 * 256 + b1)).length ≤ k := by
          simp only [List.length_cons] at h2
          simp [List.length_drop]
          omega
        rw [ih k _ hlen hlen2]

theorem decodeGo_cons (f : Nat) (b0 b1 : Nat) (rest : List Nat) :
    decodeGo (f + 1) (b0 :: b1 :: rest)
      = if b0 * 256 + b1 ≤ rest.length then
          (parseRecord (rest.take (b0 * 256 + b1)) :: (decodeGo f (rest.drop (b0 * 256 + b1))).1,
            (decodeGo f (rest.drop (b0 * 256 + b1))).2)
        else ([], true) := rfl

theorem countGo_cons (f : Nat) (b0 b1 : Nat) (rest : List Nat) :
    countGo (f + 1) (b0 :: b1 :: rest)
      = (countGo f (rest.drop (b0 * 256 + b1))).map (· + 1) := rfl

/-- Decoding a buffer that starts with the frame of a valid record:
the frame is consumed whole, parses to the record, and decoding
continues on the remainder. -/
theorem decode_payload_cons (r : SkillRecord) (t : List Nat) (h : valid_record r) :
    decode_skill_records (recordPayload r ++ t)
      = (.ok r :: (decode_skill_records t).1, (decode_skill_records t).2) := by
  have hN : (skillRecordBytes r).length = recordSize r := skillRecordBytes_length r
  have hbound : recordSize r ≤ 65535 := h.1
  have hform : recordPayload r ++ t
      = (skillRecordBytes r).length / 256 % 256 :: (skillRecordBytes r).length % 256 ::
        (skillRecordBytes r ++ t) := by
    simp [recordPayload, uint16_to_bytes, beBytes_two]
  unfold decode_skill_records
  rw [hform]
  have hfl : ((skillRecordBytes r).length / 256 % 256 :: (skillRecordBytes r).length % 256 ::
      (skillRecordBytes r ++ t)).length
      = ((skillRecordBytes r).length + t.length + 1) + 1 := by
    simp
  rw [hfl, decodeGo_cons]
  have hval : (skillRecordBytes r).length / 256 % 256 * 256 + (skillRecordBytes r).length % 256
      = (skillRecordBytes r).length := two_byte_val _ (by omega)
  rw [hval]
  have hle : (skillRecordBytes r).length ≤ (skillRecordBytes r ++ t).length := by
    simp
  rw [if_pos hle, List.take_left, List.drop_left]
  have hcongr : decodeGo ((skillRecordBytes r).length + t.length + 1) t
      = decodeGo t.length t := by
    apply decodeGo_congr <;> omega
  rw [hcongr, parseRecord_skillRecordBytes r h]

/-- Decoding a well-formed ledger with an arbitrary suffix: every ledger
frame decodes to its record, then decoding continues into the suffix. -/
theorem decode_ledger_append (rs : List SkillRecord) (t : List Nat)
    (h : ∀ x ∈ rs, valid_record x) :
    decode_skill_records (ledgerBytes rs ++ t)
      = (rs.map .ok ++ (decode_skill_records t).1, (decode_skill_records t).2) := by
  induction rs with
  | nil => simp [ledgerBytes]
  | cons r rest ih =>
    have hr : valid_record r := h r (by simp)
    have hrest : ∀ x ∈ rest, valid_record x := fun x hx => h x (by simp [hx])
    rw [ledgerBytes, List.append_assoc, decode_payload_cons r _ hr, ih hrest]
    simp

/-- Decoding a well-formed ledger yields exactly the submitted records in
order, with no truncation warning. -/
theorem decode_ledger (rs : List SkillRecord) (h : ∀ x ∈ rs, valid_record x) :
    decode_skill_records (ledgerBytes rs) = (rs.map .ok, false) := by
  have h2 := decode_ledger_append rs [] h
  simpa [decode_skill_records, decodeGo] using h2

/-- Counting a well-formed ledger with an arbitrary suffix steps over
every frame. -/
theorem countGo_ledger_append (rs : List SkillRecord) (t : List Nat)
    (h : ∀ x ∈ rs, valid_record x) :
    get_record_count (ledgerBytes rs ++ t)
      = (get_record_count t).map (· + rs.length) := by
  induction rs with
  | nil => simp [ledgerBytes, get_record_count]
  | cons r rest ih =>
    have hr : valid_record r := h r (by simp)
    have hrest : ∀ x ∈ rest, valid_record x := fun x hx => h x (by simp [hx])
    have hN : (skillRecordBytes r).length = recordSize r := skillRecordBytes_length r
    have hbound : recordSize r ≤ 65535 := hr.1
    rw [ledgerBytes, List.append_assoc]
    have hform : recordPayload r ++ (ledgerBytes rest ++ t)
        = (skillRecordBytes r).length / 256 % 256 :: (skillRecordBytes r).length % 256 ::
          (skillRecordBytes r ++ (ledgerBytes rest ++ t)) := by
      simp [recordPayload, uint16_to_bytes, beBytes_two]
    conv_lhs => rw [get_record_count, hform]
    have hfl : ((skillRecordBytes r).length / 256 % 256 :: (skillRecordBytes r).length % 256 ::
        (skillRecordBytes r ++ (ledgerBytes rest ++ t))).length
        = ((skillRecordBytes r).length + (ledgerBytes rest ++ t).length + 1) + 1 := by
      simp
    rw [hfl, countGo_cons]
    have hval : (skillRecordBytes r).length / 256 % 256 * 256
        + (skillRecordBytes r).length % 256 = (skillRecordBytes r).length :=
      two_byte_val _ (by omega)
    rw [hval, List.drop_left]
    have hcongr : countGo ((skillRecordBytes r).length + (ledgerBytes rest ++ t).length + 1)
        (ledgerBytes rest ++ t) = countGo (ledgerBytes rest ++ t).length (ledgerBytes rest ++ t) := by
      apply countGo_congr <;> omega
    rw [hcongr]
    have ih2 : countGo (ledgerBytes rest ++ t).length (ledgerBytes rest ++ t)
        = (get_record_count t).map (· + rest.length) := by
      have := ih hrest
      rw [get_record_count] at this
      exact this
    rw [ih2]
    cases get_record_count t
    · simp
    · simp
      omega

theorem recordPayload_length (r : SkillRecord) :
    (recordPayload r).length = 2 + recordSize r := by
  simp [recordPayload, uint16_to_bytes, beBytes_length, skillRecordBytes_length]

/-- Decoding an arbitrary prefix of a well-formed ledger never fails: it
returns exactly the records whose complete frames fit inside the prefix,
and the truncated-record warning fires exactly when at least a full
2-byte length header of the next frame is present. -/
theorem decode_take_ledger : ∀ rs : List SkillRecord, ∀ n : Nat,
    (∀ x ∈ rs, valid_record x) → n ≤ (ledgerBytes rs).length →
    decode_skill_records ((ledgerBytes rs).take n)
      = ((rs.take (fitCount rs n)).map .ok,
         decide (2 + (ledgerBytes (rs.take (fitCount rs n))).length ≤ n)) := by
  intro rs
  induction rs with
  | nil =>
    intro n _ hn
    simp only [ledgerBytes, List.length_nil, Nat.le_zero] at hn
    subst hn
    simp [ledgerBytes, fitCount, decode_skill_records, decodeGo]
  | cons r rest ih =>
    intro n h hn
    have hr : valid_record r := h r (by simp)
    have hrest : ∀ x ∈ rest, valid_record x := fun x hx => h x (by simp [hx])
    have hP : (recordPayload r).length = 2 + recordSize r := recordPayload_length r
    have hbound : recordSize r ≤ 65535 := hr.1
    have hlenc : (ledgerBytes (r :: rest)).length
        = 2 + recordSize r + (ledgerBytes rest).length := by
      simp [ledgerBytes, recordPayload_length]
    by_cases hc : 2 + recordSize r ≤ n
    · -- the whole first frame fits in the prefix
      have htake : (ledgerBytes (r :: rest)).take n
          = recordPayload r ++ (ledgerBytes rest).take (n - (2 + recordSize r)) := by
        rw [ledgerBytes, List.take_append_eq_append_take]
        rw [List.take_of_length_le (by omega), hP]
      rw [htake, decode_payload_cons r _ hr]
      have hn2 : n - (2 + recordSize r) ≤ (ledgerBytes rest).length := by
        rw [hlenc] at hn
        omega
      rw [ih (n - (2 + recordSize r)) hrest hn2]
      have hfit : fitCount (r :: rest) n
          = fitCount rest (n - (2 + recordSize r)) + 1 := by
        rw [fitCount, if_pos hc]
      rw [hfit]
      simp only [List.take_succ_cons, List.map_cons, Prod.mk.injEq, true_and]
      apply decide_eq_decide.mpr
      have hlenc2 : (ledgerBytes (r :: List.take (fitCount rest (n - (2 + recordSize r))) rest)).length
          = 2 + recordSize r
            + (ledgerBytes (List.take (fitCount rest (n - (2 + recordSize r))) rest)).length := by
        simp [ledgerBytes, recordPayload_length]
      rw [hlenc2]
      constructor <;> intro <;> omega
    · -- the prefix cuts inside the first frame
      have hfit : fitCount (r :: rest) n = 0 := by
        rw [fitCount, if_neg hc]
      rw [hfit]
      have htake : (ledgerBytes (r :: rest)).take n = (recordPayload r).take n := by
        rw [ledgerBytes, List.take_append_eq_append_take]
        have hz : n - (recordPayload r).length = 0 := by omega
        rw [hz]
        simp
      rw [htake]
      simp only [List.take_nil, List.map_nil, ledgerBytes, List.length_nil]
      have hN : (skillRecordBytes r).length = recordSize r := skillRecordBytes_length r
      have hform : recordPayload r
          = (skillRecordBytes r).length / 256 % 256 :: (skillRecordBytes r).length % 256 ::
            skillRecordBytes r := by
        simp [recordPayload, uint16_to_bytes, beBytes_two]
      match n, hc with
      | 0, hc =>
        simp [decode_skill_records, decodeGo]
      | 1, hc =>
        rw [hform]
        simp only [List.take_succ_cons, List.take_zero]
        simp [decode_skill_records, decodeGo]
      | n2 + 2, hc =>
        rw [hform]
        simp only [List.take_succ_cons]
        have hlt : n2 ≤ (skillRecordBytes r).length := by omega
        have hxl : ((skillRecordBytes r).take n2).length = n2 := by
          simp
          omega
        unfold decode_skill_records
        have hfuel : ((skillRecordBytes r).length / 256 % 256 :: (skillRecordBytes r).length % 256 ::
            (skillRecordBytes r).take n2).length = (n2 + 1) + 1 := by
          simp [hxl]
        rw [hfuel, decodeGo_cons]
        have hval : (skillRecordBytes r).length / 256 % 256 * 256
            + (skillRecordBytes r).length % 256 = (skillRecordBytes r).length :=
          two_byte_val _ (by omega)
        rw [hval]
        have hcond : ¬ ((skillRecordBytes r).length ≤ ((skillRecordBytes r).take n2).length) := by
          rw [hxl]
          omega
        rw [if_neg hcond]
        simp

theorem roundEven_ge_floor (y : ℝ) : ⌊y⌋ ≤ roundEven y := by
  unfold roundEven
  by_cases h : Int.fract y = 1 / 2
  · rw [if_pos h]
    by_cases he : Even ⌊y⌋
    · rw [if_pos he]
    · rw [if_neg he]
      omega
  · rw [if_neg h, round_eq]
    exact Int.floor_le_floor (by linarith)

theorem roundEven_le_ceil (y : ℝ) : roundEven y ≤ ⌈y⌉ := by
  unfold roundEven
  by_cases h : Int.fract y = 1 / 2
  · have hy : y = (⌊y⌋ : ℝ) + 1 / 2 := by
      have h2 : y - (⌊y⌋ : ℝ) = 1 / 2 := h
      linarith
    have hhalf : ⌈(1 / 2 : ℝ)⌉ = 1 := by
      rw [Int.ceil_eq_iff] <;> norm_num
    have hceil : ⌈y⌉ = ⌊y⌋ + 1 := by
      conv_lhs => rw [hy]
      rw [add_comm, Int.ceil_add_int]
      omega
    rw [if_pos h, hceil]
    by_cases he : Even ⌊y⌋
    · rw [if_pos he]; omega
    · rw [if_neg he]
  · rw [if_neg h, round_eq]
    have h1 : y + 1 / 2 < (⌈y⌉ : ℝ) + 1 := by
      have := Int.le_ceil y
      linarith
    have h2 : ⌊y + 1 / 2⌋ < ⌈y⌉ + 1 := by
      apply Int.floor_lt.mpr
      push_cast
      linarith
    omega

theorem pyRound_nonneg (x : ℝ) (n : Nat) (h : 0 ≤ x) : 0 ≤ pyRound x n := by
  unfold pyRound
  apply div_nonneg _ (by positivity)
  have h1 : (0 : ℤ) ≤ ⌊x * 10 ^ n⌋ := Int.floor_nonneg.mpr (by positivity)
  have h2 := roundEven_ge_floor (x * 10 ^ n)
  exact_mod_cast le_trans (Int.cast_le.mpr h1) (Int.cast_le.mpr h2)

theorem pyRound_le_intCast (x : ℝ) (n : Nat) (m : ℤ) (h : x ≤ (m : ℝ)) :
    pyRound x n ≤ (m : ℝ) := by
  unfold pyRound
  rw [div_le_iff (by positivity)]
  have h1 : (⌈x * 10 ^ n⌉ : ℤ) ≤ m * 10 ^ n := by
    apply Int.ceil_le.mpr
    push_cast
    have hp : (0 : ℝ) < 10 ^ n := by positivity
    exact mul_le_mul_of_nonneg_right h (le_of_lt hp)
  have h2 := roundEven_le_ceil (x * 10 ^ n)
  calc (roundEven (x * 10 ^ n) : ℝ) ≤ ((m * 10 ^ n : ℤ) : ℝ) := by
        exact_mod_cast le_trans h2 h1
    _ = (m : ℝ) * 10 ^ n := by push_cast; ring

theorem roundEven_intCast (k : ℤ) : roundEven (k : ℝ) = k := by
  unfold roundEven
  rw [Int.fract_intCast]
  rw [if_neg (by norm_num), round_intCast]

theorem pyRound_intCast (m : ℤ) (n : Nat) : pyRound (m : ℝ) n = (m : ℝ) := by
  unfold pyRound
  have hcast : (m : ℝ) * 10 ^ n = ((m * 10 ^ n : ℤ) : ℝ) := by push_cast; ring
  rw [hcast, roundEven_intCast]
  rw [div_eq_iff (by positivity)]
  push_cast
  ring

theorem decay_weight_exp_form (x : ℝ) :
    decay_weight x = Real.exp (-0.693 * x / 180) := by
  unfold decay_weight DECAY_HALF_LIFE_DAYS
  norm_num

/-- C5 counterexample: the decay weight at age 180 days is not exactly
one half, because the code uses the literal 0.693 rather than ln 2; and
two records differing only in timestamp can receive equal weight when
both timestamps exceed now, so the strict monotonicity in the claim also
fails as stated. -/
theorem decay_weight_claim_false :
    decay_weight 180 ≠ 1 / 2 ∧
    recordWeight 0 { mode := "m", domain := "py", score := 80,
                     artifact_hash := "h", timestamp := 100 }
      = recordWeight 0 { mode := "m", domain := "py", score := 80,
                         artifact_hash := "h", timestamp := 200 } := by
  constructor
  · intro h
    rw [decay_weight_exp_form] at h
    have h1 : Real.log (Real.exp (-0.693 * 180 / 180)) = Real.log (1 / 2) := by
      rw [h]
    rw [Real.log_exp] at h1
    have h2 : Real.log (1 / 2) = -Real.log 2 := by
      rw [show (1 / 2 : ℝ) = 2⁻¹ by norm_num, Real.log_inv]
    rw [h2] at h1
    have h3 : Real.log 2 = 0.693 := by linarith
    have h4 := Real.log_two_gt_d9
    rw [h3] at h4
    norm_num at h4
  · unfold recordWeight ageDays
    simp only
    rw [if_neg (by norm_num), if_neg (by norm_num)]
    have hm1 : max (0 : ℝ) (((0 : Nat) - (100 : Nat) : ℝ) / 86400) = 0 := by
      apply max_eq_left
      norm_num
    have hm2 : max (0 : ℝ) (((0 : Nat) - (200 : Nat) : ℝ) / 86400) = 0 := by
      apply max_eq_left
      norm_num
    norm_num

/-- C5 amended: the decay weight is exp(-0.693 * age / 180) with the
literal 0.693; at age 180 days it equals exp(-0.693), which is strictly
greater than one half (0.693 < ln 2); and for records with nonzero
timestamps no later than now, the older record still receives strictly
less weight. -/
theorem decay_weight_amended :
    decay_weight 180 = Real.exp (-(0.693 : ℝ)) ∧
    1 / 2 < decay_weight 180 ∧
    (∀ now : Nat, ∀ r1 r2 : DecodedRecord, r1.timestamp ≠ 0 →
      r1.timestamp < r2.timestamp → r2.timestamp ≤ now →
      recordWeight now r1 < recordWeight now r2) := by
  have hform : decay_weight 180 = Real.exp (-(0.693 : ℝ)) := by
    rw [decay_weight_exp_form]
    norm_num
  refine ⟨hform, ?_, ?_⟩
  · rw [hform]
    have h1 : Real.exp (-Real.log 2) < Real.exp (-(0.693 : ℝ)) := by
      apply Real.exp_lt_exp.mpr
      have := Real.log_two_gt_d9
      linarith
    have h2 : Real.exp (-Real.log 2) = 1 / 2 := by
      rw [Real.exp_neg, Real.exp_log (by norm_num : (0 : ℝ) < 2)]
      norm_num
    linarith
  · intro now r1 r2 h1 h2 h3
    unfold recordWeight ageDays
    rw [if_neg h1, if_neg (by omega)]
    have hc2 : (r2.timestamp : ℝ) ≤ (now : ℝ) := Nat.cast_le.mpr h3
    have hc1 : (r1.timestamp : ℝ) < (r2.timestamp : ℝ) := Nat.cast_lt.mpr h2
    have hge2 : (0 : ℝ) ≤ ((now : ℝ) - (r2.timestamp : ℝ)) / 86400 := by
      apply div_nonneg (by linarith)
      norm_num
    have hge1 : (0 : ℝ) ≤ ((now : ℝ) - (r1.timestamp : ℝ)) / 86400 := by
      apply div_nonneg (by linarith)
      norm_num
    rw [max_eq_right hge1, max_eq_right hge2]
    rw [decay_weight_exp_form, decay_weight_exp_form]
    apply Real.exp_lt_exp.mpr
    have hlt : ((now : ℝ) - (r2.timestamp : ℝ)) / 86400
        < ((now : ℝ) - (r1.timestamp : ℝ)) / 86400 := by
      gcongr <;> linarith
    linarith

theorem recordWeight_pos (now : Nat) (r : DecodedRecord) : 0 < recordWeight now r := by
  unfold recordWeight decay_weight
  exact Real.exp_pos _

theorem pyRound_eighty : pyRound (80 : ℝ) 2 = 80 := by
  rw [show (80 : ℝ) = ((80 : ℤ) : ℝ) by norm_num, pyRound_intCast]

theorem score_domain_single_eighty (dom2 : String) (r : DecodedRecord)
    (hs : r.score = 80) (now : Nat) :
    (score_domain dom2 [r] now).score = 80 := by
  unfold score_domain
  simp only [List.map_cons, List.map_nil, List.sum_cons, List.sum_nil, add_zero]
  have hmin : (min r.score 100 : Nat) = 80 := by omega
  rw [hmin]
  have hw : 0 < recordWeight now r := recordWeight_pos now r
  rw [if_pos hw]
  have hdiv : ((80 : Nat) : ℝ) * recordWeight now r / recordWeight now r = 80 := by
    rw [mul_div_assoc, div_self (ne_of_gt hw)]
    norm_num
  rw [hdiv, pyRound_eighty]

theorem total_reputation_single_eighty (dom2 : String) (r : DecodedRecord)
    (hd : normalize_domain r.domain = dom2) (hs : r.score = 80) (now : Nat) :
    total_reputation_of [r] now = 80 := by
  unfold total_reputation_of
  have hgroups : groupByDomain [r] = [(dom2, [r])] := by
    simp [groupByDomain, hd]
  rw [hgroups]
  simp only [List.map_cons, List.map_nil, List.sum_cons, List.sum_nil, add_zero,
    List.length_cons, List.length_nil]
  rw [if_pos (by norm_num)]
  rw [score_domain_single_eighty dom2 r hs now]
  norm_num
  exact pyRound_eighty

/-- C6: a single decoded record with score 80 yields total reputation
exactly 80.0, credibility level Strong (80 is at least 70 but below 90),
and no verification badge (one record is below the three-record
minimum). -/
theorem single_record_profile (wallet mode dom hash : String) (ts now : Nat) :
    (compute wallet [⟨mode, dom, 80, hash, ts⟩] now).total_reputation = 80 ∧
    (compute wallet [⟨mode, dom, 80, hash, ts⟩] now).credibility_level
      = CredibilityLevel.strong ∧
    (compute wallet [⟨mode, dom, 80, hash, ts⟩] now).verification_badge = false := by
  have htot : total_reputation_of [⟨mode, dom, 80, hash, ts⟩] now = 80 :=
    total_reputation_single_eighty (normalize_domain dom) _ rfl rfl now
  have hne : ([⟨mode, dom, 80, hash, ts⟩] : List DecodedRecord) ≠ [] := by simp
  refine ⟨?_, ?_, ?_⟩
  · unfold compute
    rw [if_neg hne]
    exact htot
  · unfold compute
    rw [if_neg hne]
    simp only
    rw [htot]
    unfold level_from_score
    rw [if_neg (by norm_num), if_pos (by norm_num)]
  · unfold compute
    rw [if_neg hne]
    simp only [List.length_cons, List.length_nil]
    have hd3 : decide (3 ≤ 0 + 1) = false := by decide
    rw [hd3, Bool.false_and]

theorem foldl_min_le (t : List Nat) : ∀ x : Nat, t.foldl min x ≤ x := by
  induction t with
  | nil => intro x; simp
  | cons y rest ih =>
    intro x
    simp only [List.foldl_cons]
    exact le_trans (ih (min x y)) (min_le_left x y)

theorem le_foldl_max (t : List Nat) : ∀ x : Nat, x ≤ t.foldl max x := by
  induction t with
  | nil => intro x; simp
  | cons y rest ih =>
    intro x
    simp only [List.foldl_cons]
    exact le_trans (le_max_left x y) (ih (max x y))

theorem minList_le_maxList (l : List Nat) (h : l ≠ []) : minList l ≤ maxList l := by
  match l with
  | [] => exact absurd rfl h
  | x :: t =>
    unfold minList maxList
    exact le_trans (foldl_min_le t x) (le_foldl_max t x)

theorem score_domain_score_nonneg (dom2 : String) (recs : List DecodedRecord)
    (now : Nat) : 0 ≤ (score_domain dom2 recs now).score := by
  unfold score_domain
  simp only
  apply pyRound_nonneg
  by_cases hw : 0 < (recs.map (fun r => recordWeight now r)).sum
  · rw [if_pos hw]
    apply div_nonneg _ (le_of_lt hw)
    apply List.sum_nonneg
    intro x hx
    obtain ⟨r, _, hr⟩ := List.mem_map.mp hx
    rw [← hr]
    exact mul_nonneg (Nat.cast_nonneg _) (le_of_lt (recordWeight_pos now r))
  · rw [if_neg hw]

theorem total_reputation_of_nonneg (records : List DecodedRecord) (now : Nat) :
    0 ≤ total_reputation_of records now := by
  unfold total_reputation_of
  simp only
  by_cases hw : 0 < ((groupByDomain records).map (fun g => (g.2.length : ℝ))).sum
  · rw [if_pos hw]
    apply pyRound_nonneg
    apply div_nonneg _ (le_of_lt hw)
    apply List.sum_nonneg
    intro x hx
    obtain ⟨g, _, hg⟩ := List.mem_map.mp hx
    rw [← hg]
    exact mul_nonneg (score_domain_score_nonneg g.1 g.2 now) (Nat.cast_nonneg _)
  · rw [if_neg hw]

theorem factor_bounds (x c : ℝ) (h0 : 0 ≤ x) (h1 : x ≤ 1) (hc : 0 ≤ c) :
    0 ≤ x * c ∧ x * c ≤ c := by
  constructor
  · exact mul_nonneg h0 hc
  · nlinarith

theorem compute_trust_index_bounds (reputation : ℝ) (record_count domain_count : Nat)
    (records : List DecodedRecord) (hrep : 0 ≤ reputation) :
    0 ≤ compute_trust_index reputation record_count domain_count records ∧
    compute_trust_index reputation record_count domain_count records ≤ 1 := by
  unfold compute_trust_index
  simp only
  have hA := factor_bounds (min 1 (reputation / 85)) 0.40
    (le_min (by norm_num) (div_nonneg hrep (by norm_num))) (min_le_left _ _) (by norm_num)
  have hB := factor_bounds (min 1 ((record_count : ℝ) / 10)) 0.20
    (le_min (by norm_num) (div_nonneg (Nat.cast_nonneg _) (by norm_num)))
    (min_le_left _ _) (by norm_num)
  have hC := factor_bounds (min 1 ((domain_count : ℝ) / 4)) 0.15
    (le_min (by norm_num) (div_nonneg (Nat.cast_nonneg _) (by norm_num)))
    (min_le_left _ _) (by norm_num)
  set consistency := if 2 ≤ (records.map (fun r => (r.score : ℝ))).length then
      max 0 (1 - Real.sqrt (((records.map (fun r => (r.score : ℝ))).map
        (fun s => (s - (records.map (fun r => (r.score : ℝ))).sum
          / ((records.map (fun r => (r.score : ℝ))).length : ℝ)) ^ 2)).sum
        / ((records.map (fun r => (r.score : ℝ))).length : ℝ)) / 30)
    else 0.5 with hcons
  have hD0 : 0 ≤ consistency ∧ consistency ≤ 1 := by
    rw [hcons]
    by_cases hc2 : 2 ≤ (records.map (fun r => (r.score : ℝ))).length
    · rw [if_pos hc2]
      constructor
      · exact le_max_left 0 _
      · apply max_le (by norm_num)
        have := Real.sqrt_nonneg (((records.map (fun r => (r.score : ℝ))).map
          (fun s => (s - (records.map (fun r => (r.score : ℝ))).sum
            / ((records.map (fun r => (r.score : ℝ))).length : ℝ)) ^ 2)).sum
          / ((records.map (fun r => (r.score : ℝ))).length : ℝ))
        linarith
    · rw [if_neg hc2]
      norm_num
  have hD := factor_bounds consistency 0.15 hD0.1 hD0.2 (by norm_num)
  set tss := (records.map (fun r => r.timestamp)).filter (fun t => t ≠ 0) with htss
  set longevity := if tss = [] then (0 : ℝ)
    else min 1 (((maxList tss : ℝ) - (minList tss : ℝ)) / 86400 / 180) with hlong
  have hE0 : 0 ≤ longevity ∧ longevity ≤ 1 := by
    rw [hlong]
    by_cases he : tss = []
    · rw [if_pos he]
      norm_num
    · rw [if_neg he]
      constructor
      · apply le_min (by norm_num)
        apply div_nonneg _ (by norm_num)
        apply div_nonneg _ (by norm_num)
        have := minList_le_maxList tss he
        have hcast : (minList tss : ℝ) ≤ (maxList tss : ℝ) := Nat.cast_le.mpr this
        linarith
      · exact min_le_left _ _
  have hE := factor_bounds longevity 0.10 hE0.1 hE0.2 (by norm_num)
  constructor
  · linarith [hA.1, hB.1, hC.1, hD.1, hE.1]
  · linarith [hA.2, hB.2, hC.2, hD.2, hE.2]

/-- C8: for every wallet, record list and evaluation time, the trust
index of the computed profile lies between 0 and 1: each of the five
factors is bounded to its own share and nonnegative, and their shares
sum to 1. -/
theorem trust_index_bounds (wallet : String) (records : List DecodedRecord)
    (now : Nat) :
    0 ≤ (compute wallet records now).trust_index ∧
    (compute wallet records now).trust_index ≤ 1 := by
  by_cases hne : records = []
  · unfold compute
    rw [if_pos hne]
    norm_num
  · unfold compute
    rw [if_neg hne]
    simp only
    have hrep : 0 ≤ total_reputation_of records now :=
      total_reputation_of_nonneg records now
    have hb := compute_trust_index_bounds (total_reputation_of records now)
      records.length (List.length (List.map
        (fun g => score_domain g.1 g.2 now) (groupByDomain records))) records hrep
    constructor
    · exact pyRound_nonneg _ 4 hb.1
    · have := pyRound_le_intCast (compute_trust_index (total_reputation_of records now)
        records.length (List.length (List.map (fun g => score_domain g.1 g.2 now)
          (groupByDomain records))) records) 4 1 (by push_cast; exact hb.2)
      calc pyRound _ 4 ≤ ((1 : ℤ) : ℝ) := this
        _ = 1 := by norm_num

theorem insertByTs_length (r : DecodedRecord) (l : List DecodedRecord) :
    (insertByTs r l).length = l.length + 1 := by
  induction l with
  | nil => rfl
  | cons x t ih =>
    unfold insertByTs
    by_cases h : r.timestamp ≤ x.timestamp
    · rw [if_pos h]
      simp
    · rw [if_neg h]
      simp [ih]

theorem sortByTs_length (l : List DecodedRecord) : (sortByTs l).length = l.length := by
  induction l with
  | nil => rfl
  | cons x t ih =>
    unfold sortByTs
    rw [insertByTs_length, ih]
    simp

/-- C9: the trend field computed by score_domain coincides with the
spec formulation: fewer than two records give stable; otherwise the
timestamp-sorted records are split with the later half taking the extra
record on odd counts, and the unweighted means of raw scores are
compared against a strict 5-point margin. -/
theorem trend_matches_spec (dom2 : String) (recs : List DecodedRecord) (now : Nat) :
    (score_domain dom2 recs now).trend = specTrend recs := by
  unfold score_domain specTrend
  simp only
  by_cases hn : 2 ≤ recs.length
  · rw [if_pos hn, if_neg (show ¬(recs.length < 2) by omega)]
    have hsl : (sortByTs recs).length = recs.length := sortByTs_length recs
    have hcut : (sortByTs recs).length - ((sortByTs recs).length + 1) / 2
        = (sortByTs recs).length / 2 := by omega
    rw [hcut]
    have hfl : ((sortByTs recs).take ((sortByTs recs).length / 2)).length
        = (sortByTs recs).length / 2 := by
      simp
      omega
    have hshl : ((sortByTs recs).drop ((sortByTs recs).length / 2)).length
        = (sortByTs recs).length - (sortByTs recs).length / 2 := by
      simp
    have hmax1 : max ((sortByTs recs).take ((sortByTs recs).length / 2)).length 1
        = ((sortByTs recs).take ((sortByTs recs).length / 2)).length := by
      rw [hfl]
      omega
    have hmax2 : max ((sortByTs recs).drop ((sortByTs recs).length / 2)).length 1
        = ((sortByTs recs).drop ((sortByTs recs).length / 2)).length := by
      rw [hshl]
      omega
    rw [hmax1, hmax2]
    apply if_congr ?c1 rfl (if_congr ?c2 rfl rfl)
    case c1 => constructor <;> intro <;> linarith
    case c2 => constructor <;> intro <;> linarith
  · rw [if_neg hn, if_pos (show recs.length < 2 by omega)]

theorem decode_nil : decode_skill_records [] = ([], false) := rfl

/-- Decoding exactly one valid frame yields exactly that record. -/
theorem decode_payload_single (r : SkillRecord) (h : valid_record r) :
    decode_skill_records (recordPayload r) = ([DecodedEntry.ok r], false) := by
  have h2 := decode_payload_cons r [] h
  rw [List.append_nil, decode_nil] at h2
  simpa using h2

/-- C1 counterexample: a record whose mode string is within the claimed
per-string 65535-byte bound but whose struct payload reaches 65536 bytes
gets a wrapped length header of 0, and decoding its frame does not
return the record. -/
theorem roundtrip_false_at_claim_bounds :
    bigModeRecord.mode.length ≤ 65535 ∧
    (decode_skill_records (recordPayload bigModeRecord)).1
      ≠ [DecodedEntry.ok bigModeRecord] := by
  have hmode : bigModeRecord.mode = bigMode0 := rfl
  have hmlen : bigMode0.length = 65508 := by
    unfold bigMode0
    rw [List.length_replicate]
  have hsize : recordSize bigModeRecord = 65536 := by
    rw [recordSize, hmode, hmlen,
      show bigModeRecord.domain = [] from rfl,
      show bigModeRecord.artifact_hash = [] from rfl]
    norm_num
  have hlen : (skillRecordBytes bigModeRecord).length = 65536 := by
    rw [skillRecordBytes_length, hsize]
  constructor
  · rw [hmode, hmlen]
    norm_num
  · have hform : recordPayload bigModeRecord
        = 0 :: 0 :: skillRecordBytes bigModeRecord := by
      rw [recordPayload, uint16_to_bytes, hlen, beBytes_two]
      rfl
    unfold decode_skill_records
    rw [hform]
    have hfl : (0 :: 0 :: skillRecordBytes bigModeRecord).length = 65537 + 1 := by
      rw [List.length_cons, List.length_cons, hlen]
    rw [hfl, decodeGo_cons]
    rw [show (0 : Nat) * 256 + 0 = 0 by norm_num]
    rw [if_pos (Nat.zero_le _), List.take_zero]
    rw [show parseRecord [] = DecodedEntry.err [] from rfl]
    dsimp only
    intro hcontra
    injection hcontra with h1 h2
    exact DecodedEntry.noConfusion h1

/-- C1 amended: for every record whose whole struct payload fits the
16-bit frame length and whose integers fit 64 bits, decoding the
length-prefixed frame written by submit gives back exactly that record,
byte-for-byte, with no truncation. -/
theorem roundtrip_ok (r : SkillRecord) (h : valid_record r) :
    decode_skill_records (recordPayload r) = ([DecodedEntry.ok r], false) :=
  decode_payload_single r h

theorem roundtrip_ok_witness :
    decode_skill_records (recordPayload sampleHi)
      = ([DecodedEntry.ok sampleHi], false) :=
  roundtrip_ok sampleHi (by decide)

/-- C2: submitting a valid record onto a well-formed ledger decodes to
the previous decode with the new record appended last, leaving all prior
decoded values unchanged, and the buffer never shrinks. -/
theorem append_monotonic (rs : List SkillRecord) (r : SkillRecord)
    (hrs : ∀ x ∈ rs, valid_record x) (hr : valid_record r) :
    (decode_skill_records (submit_skill_record (ledgerBytes rs) r)).1
      = (decode_skill_records (ledgerBytes rs)).1 ++ [DecodedEntry.ok r]
    ∧ (ledgerBytes rs).length ≤ (submit_skill_record (ledgerBytes rs) r).length := by
  constructor
  · unfold submit_skill_record
    rw [decode_ledger_append rs (recordPayload r) hrs]
    rw [decode_ledger rs hrs]
    rw [decode_payload_single r hr]
  · unfold submit_skill_record
    simp

theorem append_monotonic_witness :
    (decode_skill_records (submit_skill_record (ledgerBytes [sampleA]) sampleB)).1
      = (decode_skill_records (ledgerBytes [sampleA])).1 ++ [DecodedEntry.ok sampleB]
    ∧ (ledgerBytes [sampleA]).length
      ≤ (submit_skill_record (ledgerBytes [sampleA]) sampleB).length :=
  append_monotonic [sampleA] sampleB (by decide) (by decide)

theorem decode_take_ledger_witness :
    decode_skill_records ((ledgerBytes [tiny1, tiny2, tiny3]).take 61)
      = ([DecodedEntry.ok tiny1, DecodedEntry.ok tiny2], false) := by
  rw [decode_take_ledger [tiny1, tiny2, tiny3] 61 (by decide) (by decide)]
  decide

/-- C3 counterexample: two valid frames followed by a single stray byte
decode to exactly the two records, but the truncated-record warning is
not raised: the lone trailing byte is skipped silently because the loop
exits before reading a length header from it. -/
theorem stray_byte_not_flagged :
    decode_skill_records (ledgerBytes [tiny1, tiny2] ++ [0])
      = ([DecodedEntry.ok tiny1, DecodedEntry.ok tiny2], false) := by
  decide

/-- C4 counterexample: a record whose struct payload is 65536 bytes is
submitted without any error; the 2-byte length header wraps to 0 and so
misrepresents the frame length. -/
theorem oversize_header_wraps :
    recordSize bigModeRecord2 = 65536 ∧
    readBE (recordPayload bigModeRecord2) 0 2 = some 0 ∧
    (recordPayload bigModeRecord2).length = 65538 := by
  have hmlen : bigMode97.length = 65508 := by
    unfold bigMode97
    rw [List.length_replicate]
  have hsize : recordSize bigModeRecord2 = 65536 := by
    rw [recordSize, show bigModeRecord2.mode = bigMode97 from rfl, hmlen,
      show bigModeRecord2.domain = [] from rfl,
      show bigModeRecord2.artifact_hash = [] from rfl]
    norm_num
  refine ⟨hsize, ?_, ?_⟩
  · rw [recordPayload, uint16_to_bytes, skillRecordBytes_length, hsize, readBE_here]
    norm_num
  · rw [recordPayload_length, hsize]

/-- C4 amended: submit never fails on an oversized record; the 2-byte
length header always stores the struct size modulo 65536, and it is a
faithful length exactly when the struct size is at most 65535. -/
theorem frame_header_mod (r : SkillRecord) :
    readBE (recordPayload r) 0 2 = some (recordSize r % 65536) ∧
    (recordPayload r).length = 2 + recordSize r ∧
    (recordSize r ≤ 65535 → readBE (recordPayload r) 0 2 = some (recordSize r)) := by
  have h1 : readBE (recordPayload r) 0 2 = some (recordSize r % 65536) := by
    unfold recordPayload uint16_to_bytes
    rw [skillRecordBytes_length, readBE_here]
    norm_num
  refine ⟨h1, recordPayload_length r, fun hle => ?_⟩
  rw [h1, Nat.mod_eq_of_lt (by omega)]

theorem frame_header_mod_witness :
    readBE (recordPayload smallRecord) 0 2 = some (recordSize smallRecord) :=
  (frame_header_mod smallRecord).2.2 (by decide)

/-- C7: over a well-formed ledger the cheap prefix walk of
get_record_count agrees exactly with the length of the list returned by
the full decode. -/
theorem count_matches_decode (rs : List SkillRecord)
    (h : ∀ x ∈ rs, valid_record x) :
    get_record_count (ledgerBytes rs)
      = some ((decode_skill_records (ledgerBytes rs)).1.length) := by
  have hc := countGo_ledger_append rs [] h
  rw [List.append_nil] at hc
  have hz : get_record_count [] = some 0 := rfl
  rw [hz] at hc
  rw [decode_ledger rs h, hc]
  simp

theorem count_matches_decode_witness :
    get_record_count (ledgerBytes [sampleA, sampleB])
      = some ((decode_skill_records (ledgerBytes [sampleA, sampleB])).1.length) :=
  count_matches_decode [sampleA, sampleB] (by decide)

/-- C10: get_record_count trusts length headers blindly: a well-formed
frame followed by one stray byte makes the 2-byte header read run past
the buffer end and the call fails; a trailing frame that keeps its full
2-byte header but lacks its body is still counted, so the count exceeds
the decoded record count by one there. -/
theorem count_walks_past_end :
    get_record_count (ledgerBytes [tiny0] ++ [0]) = none ∧
    get_record_count (ledgerBytes [tiny0] ++ [0, 5]) = some 2 ∧
    (decode_skill_records (ledgerBytes [tiny0] ++ [0, 5])).1.length = 1 := by
  decide

theorem decay_weight_amended_witness :
    recordWeight 1000000 { mode := "a", domain := "b", score := 80, artifact_hash := "c", timestamp := 86400 }
      < recordWeight 1000000 { mode := "a", domain := "b", score := 80, artifact_hash := "c", timestamp := 172800 } :=
  decay_weight_amended.2.2 1000000 _ _ (by decide) (by decide) (by decide)

end VerifiedProtocol
